import Mathlib

/-!
Shallow embedding of the conflict-resolution core of StudyPlanner AI
(`resolve_calendar_conflicts` in `main.py`), together with proofs about it.

Calendar dates are modelled as integers (one unit per day); Python's
`date + timedelta(days = k)` becomes integer addition, and the
`strftime('%Y-%m-%d')` grouping key is injective on dates, so grouping by
the string key coincides with grouping by the integer date.  Python's
insertion-ordered `dict` over the date-sorted item list becomes the list
of distinct dates in first-occurrence order paired with the items of that
date; Python's stable `sorted` becomes a stable insertion sort.
-/

/-- One study item, mirroring the dictionaries built by
`parse_study_plan_to_calendar_items`: fields `date`, `course`, `task`,
`day`, `days_until_exam`, `exam_date`. -/
structure StudyItem where
  date : Int
  course : String
  task : String
  day : String
  days_until_exam : Int
  exam_date : Int
  deriving DecidableEq, Repr

/-- One entry of the `conflicts_resolved` report: the overloaded date, the
courses of the items grouped on that date, and how many items shared it. -/
structure ConflictRecord where
  date : Int
  courses : List String
  original_count : Nat
  deriving DecidableEq, Repr

/-- Insert `x` into a list sorted by `key`, before the first element whose
key is not smaller: together with `stableSortBy` this reproduces the output
of Python's stable `sorted(..., key=...)`. -/
def sortInsert (key : StudyItem → Int) (x : StudyItem) : List StudyItem → List StudyItem
  | [] => [x]
  | y :: ys => if key x ≤ key y then x :: y :: ys else y :: sortInsert key x ys

/-- Stable sort by an integer key (insertion sort); extensionally equal to
Python's stable `sorted(items, key=...)`. -/
def stableSortBy (key : StudyItem → Int) : List StudyItem → List StudyItem
  | [] => []
  | x :: xs => sortInsert key x (stableSortBy key xs)

/-- Keys of an insertion-ordered dictionary built by traversing `l`:
the distinct elements of `l` in first-occurrence order (accumulator holds
the keys seen so far, most recent first). -/
def keysAux : List Int → List Int → List Int
  | [], acc => acc.reverse
  | d :: ds, acc => if d ∈ acc then keysAux ds acc else keysAux ds (d :: acc)

/-- Distinct elements of `l` in first-occurrence order: the iteration order
of the `date_groups` dictionary in the source. -/
def keysInOrder (l : List Int) : List Int := keysAux l []

/-- The day-offset priority list of the source's rescheduling loop:
`for day_offset in [1, -1, 2, -2, 3, -3]`. -/
def OFFSETS : List Int := [1, -1, 2, -2, 3, -3]

/-- The source's exam-day test: `any(existing_item['exam_date'] == new_date
for existing_item in all_calendar_items)`. -/
def isExamDay (allItems : List StudyItem) (d : Int) : Bool :=
  allItems.any (fun e => e.exam_date == d)

/-- The source's occupancy count of a candidate date:
`len([x for x in resolved_items if x['date'] == new_date])`. -/
def countOnDate (resolved : List StudyItem) (d : Int) : Nat :=
  (resolved.filter (fun x => x.date == d)).length

/-- The source's acceptance test for a candidate date: not an exam day of
any course, and fewer than 2 already-placed output items on that date. -/
def dateAvailable (allItems resolved : List StudyItem) (d : Int) : Bool :=
  !isExamDay allItems d && decide (countOnDate resolved d < 2)

/-- The rescheduling search: walk the offset list, return the first
candidate date (`item.date + offset`) that passes `dateAvailable`;
`none` models the `for ... else` fallback of the source. -/
def findSlot (allItems resolved : List StudyItem) (item : StudyItem) :
    List Int → Option Int
  | [] => none
  | off :: rest =>
    if dateAvailable allItems resolved (item.date + off) then some (item.date + off)
    else findSlot allItems resolved item rest

/-- The accepted-reschedule copy: `modified_item = item.copy();
modified_item['date'] = new_date;
modified_item['task'] = f"[Rescheduled] {item['task']}"`. -/
def rescheduleItem (item : StudyItem) (nd : Int) : StudyItem :=
  { item with date := nd, task := "[Rescheduled] " ++ item.task }

/-- The fallback copy when no slot is found: `conflicted_item = item.copy();
conflicted_item['task'] = f"[CONFLICT] {item['task']}"` (date unchanged). -/
def conflictMark (item : StudyItem) : StudyItem :=
  { item with task := "[CONFLICT] " ++ item.task }

/-- Handle one overflowing item: append its rescheduled copy at the first
available slot, or its `[CONFLICT]`-marked copy if the search fails. -/
def processOverflow (allItems : List StudyItem) (resolved : List StudyItem)
    (item : StudyItem) : List StudyItem :=
  match findSlot allItems resolved item OFFSETS with
  | some nd => resolved ++ [rescheduleItem item nd]
  | none => resolved ++ [conflictMark item]

/-- Handle one day-bucket `g = (date, items)` of the grouping dictionary:
a singleton bucket is passed through; otherwise a ConflictRecord for the
whole bucket is appended, the most urgent item (stable sort by
`days_until_exam`) keeps the day, and the remaining items are rescheduled
one by one against the output accumulated so far. -/
def processGroup (allItems : List StudyItem)
    (acc : List StudyItem × List ConflictRecord)
    (g : Int × List StudyItem) : List StudyItem × List ConflictRecord :=
  if g.2.length = 1 then
    (acc.1 ++ g.2, acc.2)
  else
    match stableSortBy (fun x => x.days_until_exam) g.2 with
    | [] => (acc.1, acc.2 ++ [⟨g.1, g.2.map (fun x => x.course), g.2.length⟩])
    | u :: rest =>
      (rest.foldl (processOverflow allItems) (acc.1 ++ [u]),
       acc.2 ++ [⟨g.1, g.2.map (fun x => x.course), g.2.length⟩])

/-- The conflict-resolution core `resolve_calendar_conflicts`: sort the
items by date (stable), group them by date in first-occurrence (hence
chronological) order, and fold the day-buckets through `processGroup`.
An empty input is returned unchanged with an empty report. -/
def resolve_calendar_conflicts (allItems : List StudyItem) :
    List StudyItem × List ConflictRecord :=
  if allItems.isEmpty then (allItems, [])
  else
    (keysInOrder ((stableSortBy (fun x => x.date) allItems).map (fun x => x.date))).map
      (fun d => (d, (stableSortBy (fun x => x.date) allItems).filter (fun x => x.date == d)))
      |>.foldl (processGroup allItems) ([], [])

example :
    resolve_calendar_conflicts
      [⟨10, "A", "ta", "Day 1", 20, 30⟩, ⟨10, "B", "tb", "Day 1", 21, 31⟩] =
    ([⟨10, "A", "ta", "Day 1", 20, 30⟩, ⟨11, "B", "[Rescheduled] tb", "Day 1", 21, 31⟩],
     [⟨10, ["A", "B"], 2⟩]) := by decide

/-- Concrete input for the capacity claim: three items share day 10 and two
items share day 11; no exam falls near those days. -/
def exC1 : List StudyItem :=
  [⟨10, "A", "ta", "Day 1", 20, 30⟩, ⟨10, "B", "tb", "Day 1", 21, 31⟩,
   ⟨10, "C", "tc", "Day 1", 22, 32⟩, ⟨11, "D", "td", "Day 1", 29, 40⟩,
   ⟨11, "E", "te", "Day 1", 30, 41⟩]

/-- Concrete input for the exam-day claim: two equally urgent items on
day 9 with exam on day 10, plus a singleton whose exam occupies day 8. -/
def exC2 : List StudyItem :=
  [⟨9, "B", "t2", "Day 1", 1, 10⟩, ⟨9, "A", "t1", "Day 1", 1, 10⟩,
   ⟨5, "C", "t3", "Day 1", 3, 8⟩]

/-- Concrete input for the search-order claim: two items on day 10, both
adjacent days 9 and 11 free of exams and of other items. -/
def exC3 : List StudyItem :=
  [⟨10, "A", "ta", "Day 1", 20, 30⟩, ⟨10, "B", "tb", "Day 1", 21, 31⟩]

/-- Concrete input for the conflict-marker claim: two items on day 10 while
singleton items put an exam on each of the candidate days 7..9 and 11..13,
so every reschedule offset is rejected. -/
def exC4 : List StudyItem :=
  [⟨1, "C1", "s1", "Day 1", 10, 11⟩, ⟨2, "C2", "s2", "Day 1", 7, 9⟩,
   ⟨3, "C3", "s3", "Day 1", 9, 12⟩, ⟨4, "C4", "s4", "Day 1", 4, 8⟩,
   ⟨5, "C5", "s5", "Day 1", 8, 13⟩, ⟨6, "C6", "s6", "Day 1", 1, 7⟩,
   ⟨10, "A", "ta", "Day 1", 10, 20⟩, ⟨10, "B", "tb", "Day 1", 11, 21⟩]

/-- Concrete input for the conflict-record claim: one overloaded day with
two items of distinct courses. -/
def exC6 : List StudyItem :=
  [⟨10, "A", "ta", "Day 1", 20, 30⟩, ⟨10, "B", "tb", "Day 1", 21, 31⟩]

/-- Concrete input for the output-order claim: day 11 is an exam day, so
the overflow item of day 10 is rescheduled backwards to day 9, after the
day-9 and day-10 items were already emitted. -/
def exC7 : List StudyItem :=
  [⟨9, "X", "tx", "Day 1", 2, 11⟩, ⟨10, "A", "ta", "Day 1", 20, 30⟩,
   ⟨10, "B", "tb", "Day 1", 21, 31⟩]

/-- C1 counterexample: on `exC1` the resolved schedule puts three items on
day 11 — two `[Rescheduled]` arrivals plus the day's own kept item — and
none of them carries the `[CONFLICT]` marker, although the code's own
reschedule capacity admits at most 2 items per day; the hour-sum capacity
bound of the claim does not exist in the code (items carry no duration and
`resolve_calendar_conflicts` takes no `maxDailyHours`). -/
theorem resolve_overfills_a_day_without_marker :
    ((resolve_calendar_conflicts exC1).1.filter (fun o => o.date == 11)).length = 3 ∧
    ∀ o ∈ (resolve_calendar_conflicts exC1).1, ∀ i ∈ exC1,
      o.task ≠ "[CONFLICT] " ++ i.task := by decide

/-- C2 counterexample: every item of `exC2` satisfies `date < examDate`,
yet the resolved schedule contains an item dated on or after its own exam
date (the day-9 overflow item is pushed to day 11 past its exam on day 10,
because only exact exam-day equality is rejected by the search). -/
theorem resolve_moves_item_past_its_exam :
    (∀ i ∈ exC2, i.date < i.exam_date) ∧
    ∃ o ∈ (resolve_calendar_conflicts exC2).1, o.exam_date ≤ o.date := by decide

/-- C3 counterexample: on `exC3` both day 9 and day 11 are acceptable for
the overflow item of day 10 (day 9 is no exam day and holds no items), yet
the code reschedules to day 11: the offset `+1` is tried before `-1`,
contradicting the claimed order `-1, +1, -2, +2, ...` with bound 7. -/
theorem resolve_tries_plus_one_before_minus_one :
    (resolve_calendar_conflicts exC3).1.map (fun o => o.date) = [10, 11] ∧
    dateAvailable exC3 [⟨10, "A", "ta", "Day 1", 20, 30⟩] 9 = true := by decide

/-- C4 counterexample: on `exC4` the unplaceable item is emitted with task
exactly `"[CONFLICT] tb"`, and no output task is
`"[CONFLICT - Overloaded] "` followed by an input task: the marker text of
the code is `"[CONFLICT] "`, not `"[CONFLICT - Overloaded] "`. -/
theorem conflict_marker_text_is_conflict_only :
    (⟨10, "B", "[CONFLICT] tb", "Day 1", 11, 21⟩ : StudyItem) ∈
      (resolve_calendar_conflicts exC4).1 ∧
    ∀ o ∈ (resolve_calendar_conflicts exC4).1, ∀ i ∈ exC4,
      o.task ≠ "[CONFLICT - Overloaded] " ++ i.task := by decide

/-- C6 counterexample: the overloaded day of `exC6` produces a single
record listing both courses with `original_count = 2`; no record has the
claimed per-item shape of a singleton course list with count 1. -/
theorem conflict_record_is_per_day :
    (resolve_calendar_conflicts exC6).2 = [⟨10, ["A", "B"], 2⟩] ∧
    ∀ r ∈ (resolve_calendar_conflicts exC6).2,
      ¬(r.original_count = 1 ∧ r.courses.length = 1) := by decide

/-- C7 counterexample: on `exC7` the resolved items come out dated
`[9, 10, 9]` — the backward-rescheduled item is appended after the day-10
item — so the output item list is not sorted by resulting date. -/
theorem resolve_output_not_sorted_by_date :
    (resolve_calendar_conflicts exC7).1.map (fun o => o.date) = [9, 10, 9] ∧
    ¬ List.Pairwise (fun a b => a ≤ b)
        ((resolve_calendar_conflicts exC7).1.map (fun o => o.date)) := by decide

theorem sortInsert_perm (key : StudyItem → Int) (x : StudyItem) (l : List StudyItem) :
    List.Perm (sortInsert key x l) (x :: l) := by
  induction l with
  | nil => simp [sortInsert]
  | cons y ys ih =>
    by_cases h : key x ≤ key y
    · simp [sortInsert, h]
    · simp only [sortInsert, if_neg h]
      exact (List.Perm.cons y ih).trans (List.Perm.swap x y ys)

theorem stableSortBy_perm (key : StudyItem → Int) (l : List StudyItem) :
    List.Perm (stableSortBy key l) l := by
  induction l with
  | nil => simp [stableSortBy]
  | cons x xs ih =>
    exact (sortInsert_perm key x (stableSortBy key xs)).trans (List.Perm.cons x ih)

theorem stableSortBy_length (key : StudyItem → Int) (l : List StudyItem) :
    (stableSortBy key l).length = l.length :=
  (stableSortBy_perm key l).length_eq

theorem mem_of_mem_stableSortBy {key : StudyItem → Int} {l : List StudyItem}
    {x : StudyItem} (h : x ∈ stableSortBy key l) : x ∈ l :=
  (stableSortBy_perm key l).mem_iff.mp h

theorem sortInsert_pairwise (key : StudyItem → Int) (x : StudyItem)
    (l : List StudyItem) (h : List.Pairwise (fun a b => key a ≤ key b) l) :
    List.Pairwise (fun a b => key a ≤ key b) (sortInsert key x l) := by
  induction l with
  | nil => simp [sortInsert]
  | cons y ys ih =>
    rcases List.pairwise_cons.mp h with ⟨hy, hys⟩
    by_cases hxy : key x ≤ key y
    · simp only [sortInsert, if_pos hxy]
      refine List.pairwise_cons.mpr ⟨?_, h⟩
      intro a ha
      rcases List.mem_cons.mp ha with rfl | ha
      · exact hxy
      · exact le_trans hxy (hy a ha)
    · simp only [sortInsert, if_neg hxy]
      refine List.pairwise_cons.mpr ⟨?_, ih hys⟩
      intro a ha
      have hmem : a ∈ x :: ys := (sortInsert_perm key x ys).mem_iff.mp ha
      rcases List.mem_cons.mp hmem with rfl | ha2
      · exact le_of_not_le hxy
      · exact hy a ha2

theorem stableSortBy_pairwise (key : StudyItem → Int) (l : List StudyItem) :
    List.Pairwise (fun a b => key a ≤ key b) (stableSortBy key l) := by
  induction l with
  | nil => simp [stableSortBy]
  | cons x xs ih => exact sortInsert_pairwise key x (stableSortBy key xs) ih

theorem mem_keysAux_of_mem_acc (l : List Int) (acc : List Int) (a : Int)
    (h : a ∈ acc) : a ∈ keysAux l acc := by
  induction l generalizing acc with
  | nil => simpa [keysAux] using h
  | cons d ds ih =>
    by_cases hd : d ∈ acc
    · simpa [keysAux, hd] using ih acc h
    · simpa [keysAux, hd] using ih (d :: acc) (List.mem_cons_of_mem d h)

theorem mem_keysAux_of_mem (l : List Int) (acc : List Int) (a : Int)
    (h : a ∈ l) : a ∈ keysAux l acc := by
  induction l generalizing acc with
  | nil => cases h
  | cons d ds ih =>
    rcases List.mem_cons.mp h with rfl | ha
    · by_cases hd : a ∈ acc
      · simpa [keysAux, hd] using mem_keysAux_of_mem_acc ds acc a hd
      · simpa [keysAux, hd] using
          mem_keysAux_of_mem_acc ds (a :: acc) a (List.mem_cons_self a acc)
    · by_cases hd : d ∈ acc
      · simpa [keysAux, hd] using ih acc ha
      · simpa [keysAux, hd] using ih (d :: acc) ha

theorem mem_of_mem_keysAux (l : List Int) (acc : List Int) (a : Int)
    (h : a ∈ keysAux l acc) : a ∈ l ∨ a ∈ acc := by
  induction l generalizing acc with
  | nil => right; simpa [keysAux] using h
  | cons d ds ih =>
    by_cases hd : d ∈ acc
    · rcases ih acc (by simpa [keysAux, hd] using h) with h2 | h2
      · exact Or.inl (List.mem_cons_of_mem d h2)
      · exact Or.inr h2
    · rcases ih (d :: acc) (by simpa [keysAux, hd] using h) with h2 | h2
      · exact Or.inl (List.mem_cons_of_mem d h2)
      · rcases List.mem_cons.mp h2 with rfl | h3
        · exact Or.inl (List.mem_cons_self a ds)
        · exact Or.inr h3

theorem keysAux_nodup (l : List Int) (acc : List Int) (h : acc.Nodup) :
    (keysAux l acc).Nodup := by
  induction l generalizing acc with
  | nil => simpa [keysAux] using h
  | cons d ds ih =>
    by_cases hd : d ∈ acc
    · simpa [keysAux, hd] using ih acc h
    · simpa [keysAux, hd] using ih (d :: acc) (List.nodup_cons.mpr ⟨hd, h⟩)

theorem keysInOrder_nodup (l : List Int) : (keysInOrder l).Nodup :=
  keysAux_nodup l [] List.nodup_nil

theorem mem_keysInOrder (l : List Int) (a : Int) (h : a ∈ l) :
    a ∈ keysInOrder l :=
  mem_keysAux_of_mem l [] a h

theorem mem_of_mem_keysInOrder (l : List Int) (a : Int)
    (h : a ∈ keysInOrder l) : a ∈ l := by
  rcases mem_of_mem_keysAux l [] a h with h2 | h2
  · exact h2
  · cases h2

theorem length_filter_split (p : StudyItem → Bool) (l : List StudyItem) :
    (l.filter p).length + (l.filter (fun a => !p a)).length = l.length := by
  induction l with
  | nil => rfl
  | cons x xs ih =>
    cases hx : p x <;> simp [List.filter_cons, hx] <;> omega

theorem length_filter_partition (ks : List Int) (l : List StudyItem)
    (hnd : ks.Nodup) (hcov : ∀ x ∈ l, x.date ∈ ks) :
    (ks.map (fun d => (l.filter (fun x => x.date == d)).length)).sum = l.length := by
  induction ks generalizing l with
  | nil =>
    cases l with
    | nil => rfl
    | cons x xs => exact absurd (hcov x (List.mem_cons_self x xs)) (by simp)
  | cons k ks ih =>
    rcases List.nodup_cons.mp hnd with ⟨hk, hnd'⟩
    have hrw : ∀ d ∈ ks,
        l.filter (fun x => x.date == d) =
        (l.filter (fun x => !(x.date == k))).filter (fun x => x.date == d) := by
      intro d hd
      rw [List.filter_filter]
      refine (List.filter_congr ?_).symm
      intro x _
      by_cases hx : x.date = d
      · have hdk : d ≠ k := fun hdk => hk (hdk ▸ hd)
        simp [hx, hdk]
      · simp [hx]
    have hcov' : ∀ x ∈ l.filter (fun x => !(x.date == k)), x.date ∈ ks := by
      intro x hx
      rcases List.mem_filter.mp hx with ⟨hxl, hxk⟩
      have := hcov x hxl
      rcases List.mem_cons.mp this with h2 | h2
      · simp [h2] at hxk
      · exact h2
    have htail :
        (ks.map (fun d => (l.filter (fun x => x.date == d)).length)).sum =
        (l.filter (fun x => !(x.date == k))).length := by
      rw [List.map_congr_left (fun d hd => by rw [hrw d hd])]
      exact ih (l.filter (fun x => !(x.date == k))) hnd' hcov'
    simp only [List.map_cons, List.sum_cons, htail]
    exact length_filter_split (fun x => x.date == k) l

theorem foldl_processOverflow_length (A : List StudyItem) (rest R : List StudyItem) :
    (rest.foldl (processOverflow A) R).length = R.length + rest.length := by
  induction rest generalizing R with
  | nil => rfl
  | cons i is ih =>
    simp only [List.foldl_cons]
    rw [ih]
    rcases h : findSlot A R i OFFSETS with _ | nd <;>
      simp [processOverflow, h, Nat.add_comm, Nat.add_assoc, Nat.add_left_comm]

theorem processGroup_fst_length (A : List StudyItem)
    (acc : List StudyItem × List ConflictRecord) (g : Int × List StudyItem) :
    (processGroup A acc g).1.length = acc.1.length + g.2.length := by
  by_cases h : g.2.length = 1
  · simp [processGroup, h]
  · rcases h2 : stableSortBy (fun x => x.days_until_exam) g.2 with _ | ⟨u, rest⟩
    · have hlen : g.2.length = 0 := by
        have := stableSortBy_length (fun x => x.days_until_exam) g.2
        rw [h2] at this
        exact this.symm
      simp [processGroup, h, h2, hlen]
    · have hlen : rest.length + 1 = g.2.length := by
        have := stableSortBy_length (fun x => x.days_until_exam) g.2
        rw [h2] at this
        simpa using this
      simp only [processGroup, h, if_false, h2, if_neg h]
      rw [foldl_processOverflow_length]
      simp [← hlen]
      omega

theorem foldl_processGroup_fst_length (A : List StudyItem)
    (gs : List (Int × List StudyItem))
    (st : List StudyItem × List ConflictRecord) :
    ((gs.foldl (processGroup A) st).1).length =
      st.1.length + (gs.map (fun g => g.2.length)).sum := by
  induction gs generalizing st with
  | nil => simp
  | cons g gs ih =>
    simp only [List.foldl_cons, List.map_cons, List.sum_cons]
    rw [ih, processGroup_fst_length]
    omega

/-- C5: `resolve_calendar_conflicts` neither drops nor duplicates items —
the output item list always has the length of the input list — and the
empty input returns the empty schedule with an empty conflict report. -/
theorem resolve_preserves_item_count :
    (∀ items : List StudyItem,
      (resolve_calendar_conflicts items).1.length = items.length) ∧
    resolve_calendar_conflicts [] = ([], []) := by
  constructor
  · intro items
    by_cases hemp : items.isEmpty
    · simp [resolve_calendar_conflicts, hemp]
    · simp only [resolve_calendar_conflicts, hemp, if_false, Bool.false_eq_true]
      rw [foldl_processGroup_fst_length]
      simp only [List.length_nil, Nat.zero_add, List.map_map]
      have hmm :
          ((keysInOrder ((stableSortBy (fun x => x.date) items).map (fun x => x.date))).map
            ((fun g : Int × List StudyItem => g.2.length) ∘
              (fun d => (d, (stableSortBy (fun x => x.date) items).filter (fun x => x.date == d))))) =
          ((keysInOrder ((stableSortBy (fun x => x.date) items).map (fun x => x.date))).map
            (fun d => ((stableSortBy (fun x => x.date) items).filter (fun x => x.date == d)).length)) := by
        exact List.map_congr_left (fun d _ => rfl)
      rw [hmm, length_filter_partition _ _ (keysInOrder_nodup _) ?_,
        stableSortBy_length]
      intro x hx
      exact mem_keysInOrder _ _ (List.mem_map_of_mem (fun x => x.date) hx)
  · rfl

theorem dateAvailable_spec (A R : List StudyItem) (d : Int)
    (h : dateAvailable A R d = true) :
    isExamDay A d = false ∧ countOnDate R d < 2 := by
  simp only [dateAvailable, Bool.and_eq_true, Bool.not_eq_true',
    decide_eq_true_eq] at h
  exact h

theorem not_examDay_of_isExamDay_false (A : List StudyItem) (d : Int)
    (h : isExamDay A d = false) : ∀ j ∈ A, j.exam_date ≠ d := by
  intro j hj heq
  have htrue : isExamDay A d = true := by
    simp only [isExamDay, List.any_eq_true, beq_iff_eq]
    exact ⟨j, hj, heq⟩
  rw [h] at htrue
  cases htrue

theorem findSlot_sound (A R : List StudyItem) (it : StudyItem)
    (offs : List Int) (nd : Int) (h : findSlot A R it offs = some nd) :
    dateAvailable A R nd = true ∧ ∃ off ∈ offs, nd = it.date + off := by
  induction offs with
  | nil => cases h
  | cons off rest ih =>
    by_cases hav : dateAvailable A R (it.date + off) = true
    · rw [findSlot, if_pos hav] at h
      obtain rfl : it.date + off = nd := Option.some.inj h
      exact ⟨hav, off, List.mem_cons_self off rest, rfl⟩
    · rw [findSlot, if_neg hav] at h
      obtain ⟨h1, off2, hm, he⟩ := ih h
      exact ⟨h1, off2, List.mem_cons_of_mem off hm, he⟩

theorem processOverflow_eq_some (A R : List StudyItem) (it : StudyItem)
    (nd : Int) (h : findSlot A R it OFFSETS = some nd) :
    processOverflow A R it = R ++ [rescheduleItem it nd] := by
  unfold processOverflow
  rw [h]

theorem processOverflow_eq_none (A R : List StudyItem) (it : StudyItem)
    (h : findSlot A R it OFFSETS = none) :
    processOverflow A R it = R ++ [conflictMark it] := by
  unfold processOverflow
  rw [h]

/-- Shape of the items the resolution pass can emit: an input item passed
through unchanged, a rescheduled copy whose accepted date is no course's
exam day, or a `[CONFLICT]`-marked copy. -/
def Produced (allItems : List StudyItem) (o : StudyItem) : Prop :=
  o ∈ allItems ∨
  (∃ i ∈ allItems, ∃ nd : Int,
    isExamDay allItems nd = false ∧ o = rescheduleItem i nd) ∨
  (∃ i ∈ allItems, o = conflictMark i)

theorem processOverflow_produced (A R : List StudyItem) (it : StudyItem)
    (hR : ∀ o ∈ R, Produced A o) (hit : it ∈ A) :
    ∀ o ∈ processOverflow A R it, Produced A o := by
  intro o ho
  rcases h : findSlot A R it OFFSETS with _ | nd
  · rw [processOverflow_eq_none A R it h] at ho
    rcases List.mem_append.mp ho with h2 | h2
    · exact hR o h2
    · obtain rfl := List.mem_singleton.mp h2
      exact Or.inr (Or.inr ⟨it, hit, rfl⟩)
  · rw [processOverflow_eq_some A R it nd h] at ho
    rcases List.mem_append.mp ho with h2 | h2
    · exact hR o h2
    · obtain rfl := List.mem_singleton.mp h2
      have hav := (findSlot_sound A R it OFFSETS nd h).1
      exact Or.inr (Or.inl ⟨it, hit, nd, (dateAvailable_spec A R nd hav).1, rfl⟩)

theorem foldl_processOverflow_produced (A : List StudyItem)
    (rest R : List StudyItem) (hR : ∀ o ∈ R, Produced A o)
    (hrest : ∀ i ∈ rest, i ∈ A) :
    ∀ o ∈ rest.foldl (processOverflow A) R, Produced A o := by
  induction rest generalizing R with
  | nil => exact hR
  | cons i is ih =>
    intro o ho
    simp only [List.foldl_cons] at ho
    refine ih (processOverflow A R i)
      (processOverflow_produced A R i hR (hrest i (List.mem_cons_self i is)))
      (fun j hj => hrest j (List.mem_cons_of_mem i hj)) o ho

theorem processGroup_fst_produced (A : List StudyItem)
    (acc : List StudyItem × List ConflictRecord) (g : Int × List StudyItem)
    (hacc : ∀ o ∈ acc.1, Produced A o) (hg : ∀ x ∈ g.2, x ∈ A) :
    ∀ o ∈ (processGroup A acc g).1, Produced A o := by
  by_cases h : g.2.length = 1
  · intro o ho
    simp only [processGroup, if_pos h] at ho
    rcases List.mem_append.mp ho with h2 | h2
    · exact hacc o h2
    · exact Or.inl (hg o h2)
  · rcases h2 : stableSortBy (fun x => x.days_until_exam) g.2 with _ | ⟨u, rest⟩
    · intro o ho
      simp only [processGroup, if_neg h, h2] at ho
      exact hacc o ho
    · intro o ho
      simp only [processGroup, if_neg h, h2] at ho
      refine foldl_processOverflow_produced A rest (acc.1 ++ [u]) ?_ ?_ o ho
      · intro x hx
        rcases List.mem_append.mp hx with h3 | h3
        · exact hacc x h3
        · obtain rfl := List.mem_singleton.mp h3
          have hx2 : x ∈ stableSortBy (fun t => t.days_until_exam) g.2 := by
            rw [h2]
            exact List.mem_cons_self x rest
          exact Or.inl (hg x (mem_of_mem_stableSortBy hx2))
      · intro i hi
        have hi2 : i ∈ stableSortBy (fun t => t.days_until_exam) g.2 := by
          rw [h2]
          exact List.mem_cons_of_mem u hi
        exact hg i (mem_of_mem_stableSortBy hi2)

theorem foldl_processGroup_fst_produced (A : List StudyItem)
    (gs : List (Int × List StudyItem))
    (st : List StudyItem × List ConflictRecord)
    (hst : ∀ o ∈ st.1, Produced A o)
    (hgs : ∀ g ∈ gs, ∀ x ∈ g.2, x ∈ A) :
    ∀ o ∈ (gs.foldl (processGroup A) st).1, Produced A o := by
  induction gs generalizing st with
  | nil => exact hst
  | cons g gs ih =>
    intro o ho
    simp only [List.foldl_cons] at ho
    refine ih (processGroup A st g)
      (processGroup_fst_produced A st g hst (hgs g (List.mem_cons_self g gs)))
      (fun g2 hg2 => hgs g2 (List.mem_cons_of_mem g hg2)) o ho

theorem resolve_output_produced (items : List StudyItem) :
    ∀ o ∈ (resolve_calendar_conflicts items).1, Produced items o := by
  by_cases hemp : items.isEmpty
  · intro o ho
    simp only [resolve_calendar_conflicts, hemp, if_true] at ho
    exact Or.inl ho
  · simp only [resolve_calendar_conflicts, hemp, if_false, Bool.false_eq_true]
    refine foldl_processGroup_fst_produced items _ ([], [])
      (by intro o ho; cases ho) ?_
    intro g hg x hx
    rcases List.mem_map.mp hg with ⟨d, _, rfl⟩
    exact mem_of_mem_stableSortBy (List.mem_filter.mp hx).1

/-- C1 (amended): `resolve_calendar_conflicts` takes no `maxDailyHours`
parameter and items carry no duration, so no hour-sum capacity exists; the
only capacity rule in the code is the reschedule acceptance test: a
candidate date returned by the search holds fewer than 2 already-placed
output items and is no course's exam day.  Items kept on their original
day undergo no capacity check at all (see the counterexample). -/
theorem reschedule_capacity_is_item_count :
    ∀ (allItems resolved : List StudyItem) (item : StudyItem) (nd : Int),
      findSlot allItems resolved item OFFSETS = some nd →
      countOnDate resolved nd < 2 ∧ isExamDay allItems nd = false := by
  intro A R it nd h
  have hav := (findSlot_sound A R it OFFSETS nd h).1
  have hsp := dateAvailable_spec A R nd hav
  exact ⟨hsp.2, hsp.1⟩

theorem reschedule_capacity_is_item_count_witness :
    findSlot exC3 [⟨10, "A", "ta", "Day 1", 20, 30⟩]
        ⟨10, "B", "tb", "Day 1", 21, 31⟩ OFFSETS = some 11 ∧
    countOnDate [⟨10, "A", "ta", "Day 1", 20, 30⟩] 11 < 2 ∧
    isExamDay exC3 11 = false :=
  ⟨by decide,
   reschedule_capacity_is_item_count exC3 [⟨10, "A", "ta", "Day 1", 20, 30⟩]
     ⟨10, "B", "tb", "Day 1", 21, 31⟩ 11 (by decide)⟩

/-- C2 (amended): provided every input item satisfies `date < examDate`,
every output item is dated strictly before its own exam date unless it is
a rescheduled copy; a rescheduled copy never lands exactly on any course's
exam day but can land past its own exam date (see the counterexample). -/
theorem non_rescheduled_output_precedes_exam :
    ∀ items : List StudyItem, (∀ i ∈ items, i.date < i.exam_date) →
      ∀ o ∈ (resolve_calendar_conflicts items).1,
        o.date < o.exam_date ∨
        ∃ i ∈ items, ∃ nd : Int, o = rescheduleItem i nd := by
  intro items hpre o ho
  rcases resolve_output_produced items o ho with h | ⟨i, hi, nd, _, rfl⟩ | ⟨i, hi, rfl⟩
  · exact Or.inl (hpre o h)
  · exact Or.inr ⟨i, hi, nd, rfl⟩
  · exact Or.inl (hpre i hi)

theorem non_rescheduled_output_precedes_exam_witness :
    (∀ i ∈ exC2, i.date < i.exam_date) ∧
    (⟨9, "B", "t2", "Day 1", 1, 10⟩ : StudyItem) ∈
      (resolve_calendar_conflicts exC2).1 ∧
    ((⟨9, "B", "t2", "Day 1", 1, 10⟩ : StudyItem).date <
        (⟨9, "B", "t2", "Day 1", 1, 10⟩ : StudyItem).exam_date ∨
      ∃ i ∈ exC2, ∃ nd : Int,
        (⟨9, "B", "t2", "Day 1", 1, 10⟩ : StudyItem) = rescheduleItem i nd) :=
  ⟨by decide, by decide,
   non_rescheduled_output_precedes_exam exC2 (by decide) _ (by decide)⟩

theorem findSlot_eq_find (A R : List StudyItem) (it : StudyItem)
    (offs : List Int) :
    findSlot A R it offs =
      (offs.map (fun off => it.date + off)).find?
        (fun nd => dateAvailable A R nd) := by
  induction offs with
  | nil => rfl
  | cons off rest ih =>
    by_cases h : dateAvailable A R (it.date + off) = true
    · rw [findSlot, if_pos h, List.map_cons, List.find?_cons_of_pos _ h]
    · rw [findSlot, if_neg h, List.map_cons, List.find?_cons_of_neg _ h, ih]

/-- C3 (amended): the rescheduling search tries the candidate dates in the
exact order `date+1, date-1, date+2, date-2, date+3, date-3` — positive
offset before negative for each distance, bound 3 days, not the claimed
`-1, +1, ..., -7, +7` with bound 7 — and takes the first acceptable
candidate in that order: the search coincides with `List.find?` of the
availability test over exactly that candidate list. -/
theorem offset_search_plus_first_bound_three :
    ∀ (allItems resolved : List StudyItem) (item : StudyItem),
      findSlot allItems resolved item OFFSETS =
        [item.date + 1, item.date - 1, item.date + 2, item.date - 2,
         item.date + 3, item.date - 3].find?
          (fun nd => dateAvailable allItems resolved nd) := by
  intro A R it
  rw [findSlot_eq_find]
  norm_num [OFFSETS, sub_eq_add_neg]

/-- C4 (amended): every output item is an input item passed through, an
input item rescheduled, or the fallback copy `conflictMark i`, whose task
is `"[CONFLICT] " ++ i.task` (not `"[CONFLICT - Overloaded] "`) and whose
date, course, day, urgency and exam date equal the input item's; this
marked copy is the only failure shape the core emits (items carry no
duration field, so "original duration" has no counterpart in the code). -/
theorem unplaceable_item_becomes_conflict_copy :
    ∀ items : List StudyItem, ∀ o ∈ (resolve_calendar_conflicts items).1,
      o ∈ items ∨
      (∃ i ∈ items, ∃ nd : Int, o = rescheduleItem i nd) ∨
      (∃ i ∈ items, o = conflictMark i) := by
  intro items o ho
  rcases resolve_output_produced items o ho with h | ⟨i, hi, nd, _, rfl⟩ | h
  · exact Or.inl h
  · exact Or.inr (Or.inl ⟨i, hi, nd, rfl⟩)
  · exact Or.inr (Or.inr h)

theorem unplaceable_item_becomes_conflict_copy_witness :
    (⟨10, "B", "[CONFLICT] tb", "Day 1", 11, 21⟩ : StudyItem) ∈
      (resolve_calendar_conflicts exC4).1 ∧
    ((⟨10, "B", "[CONFLICT] tb", "Day 1", 11, 21⟩ : StudyItem) ∈ exC4 ∨
     (∃ i ∈ exC4, ∃ nd : Int,
       (⟨10, "B", "[CONFLICT] tb", "Day 1", 11, 21⟩ : StudyItem) = rescheduleItem i nd) ∨
     (∃ i ∈ exC4,
       (⟨10, "B", "[CONFLICT] tb", "Day 1", 11, 21⟩ : StudyItem) = conflictMark i)) :=
  ⟨by decide, unplaceable_item_becomes_conflict_copy exC4 _ (by decide)⟩

/-- C8: the resolution pass is a pure function of its input list — two
calls on identical input lists (same items in the same order) return
identical output item lists and identical conflict reports; the embedding
is a Lean function, mirroring that the source reads only its argument and
builds fresh output collections. -/
theorem resolve_is_deterministic :
    ∀ items1 items2 : List StudyItem, items1 = items2 →
      resolve_calendar_conflicts items1 = resolve_calendar_conflicts items2 := by
  intro a b h
  rw [h]

theorem resolve_is_deterministic_witness :
    exC3 = exC3 ∧
    resolve_calendar_conflicts exC3 = resolve_calendar_conflicts exC3 :=
  ⟨rfl, resolve_is_deterministic exC3 exC3 rfl⟩

/-- Concrete input for the pass-through claim: two items on day 10, with
the kept item `A` emitted untouched. -/
def exC9 : List StudyItem :=
  [⟨10, "A", "ta", "Day 1", 20, 30⟩, ⟨10, "B", "tb", "Day 1", 21, 31⟩]

/-- C9: an output item whose task is neither an input task prefixed with
`"[Rescheduled] "` nor one prefixed with `"[CONFLICT] "` is an input item
passed through completely unchanged — every field, including date, task,
course, day, urgency and exam date, is that of an input item. -/
theorem unmarked_output_items_unchanged :
    ∀ items : List StudyItem, ∀ o ∈ (resolve_calendar_conflicts items).1,
      (∀ i ∈ items, o.task ≠ "[Rescheduled] " ++ i.task) →
      (∀ i ∈ items, o.task ≠ "[CONFLICT] " ++ i.task) →
      o ∈ items := by
  intro items o ho h1 h2
  rcases resolve_output_produced items o ho with h | ⟨i, hi, nd, _, rfl⟩ | ⟨i, hi, rfl⟩
  · exact h
  · exact absurd rfl (h1 i hi)
  · exact absurd rfl (h2 i hi)

theorem unmarked_output_items_unchanged_witness :
    (⟨10, "A", "ta", "Day 1", 20, 30⟩ : StudyItem) ∈
      (resolve_calendar_conflicts exC9).1 ∧
    (∀ i ∈ exC9,
      (⟨10, "A", "ta", "Day 1", 20, 30⟩ : StudyItem).task ≠ "[Rescheduled] " ++ i.task) ∧
    (∀ i ∈ exC9,
      (⟨10, "A", "ta", "Day 1", 20, 30⟩ : StudyItem).task ≠ "[CONFLICT] " ++ i.task) ∧
    (⟨10, "A", "ta", "Day 1", 20, 30⟩ : StudyItem) ∈ exC9 :=
  ⟨by decide, by decide, by decide,
   unmarked_output_items_unchanged exC9 _ (by decide) (by decide) (by decide)⟩

/-- Concrete input for the exam-day-avoidance claim: two items on day 10;
the overflow item is rescheduled to day 11. -/
def exC10 : List StudyItem :=
  [⟨10, "A", "ta", "Day 1", 20, 30⟩, ⟨10, "B", "tb", "Day 1", 21, 31⟩]

/-- C10: an output item that is neither an input item passed through nor a
`[CONFLICT]`-marked copy — i.e. an item the pass rescheduled — carries a
date that differs from the exam date of every item in the input
collection: the search rejects a candidate equal to the exam day of any
course, not only the moved item's own. -/
theorem rescheduled_items_avoid_all_exam_days :
    ∀ items : List StudyItem, ∀ o ∈ (resolve_calendar_conflicts items).1,
      o ∉ items → (∀ i ∈ items, o ≠ conflictMark i) →
      ∀ j ∈ items, o.date ≠ j.exam_date := by
  intro items o ho hnotin hnotc j hj
  rcases resolve_output_produced items o ho with h | ⟨i, hi, nd, hex, rfl⟩ | ⟨i, hi, hc⟩
  · exact absurd h hnotin
  · intro heq
    exact not_examDay_of_isExamDay_false items nd hex j hj heq.symm
  · exact absurd hc (hnotc i hi)

theorem rescheduled_items_avoid_all_exam_days_witness :
    (⟨11, "B", "[Rescheduled] tb", "Day 1", 21, 31⟩ : StudyItem) ∈
      (resolve_calendar_conflicts exC10).1 ∧
    (⟨11, "B", "[Rescheduled] tb", "Day 1", 21, 31⟩ : StudyItem) ∉ exC10 ∧
    (∀ i ∈ exC10,
      (⟨11, "B", "[Rescheduled] tb", "Day 1", 21, 31⟩ : StudyItem) ≠ conflictMark i) ∧
    (∀ j ∈ exC10,
      (⟨11, "B", "[Rescheduled] tb", "Day 1", 21, 31⟩ : StudyItem).date ≠ j.exam_date) :=
  ⟨by decide, by decide, by decide,
   rescheduled_items_avoid_all_exam_days exC10 _ (by decide) (by decide) (by decide)⟩

theorem processGroup_snd_cases (A : List StudyItem)
    (acc : List StudyItem × List ConflictRecord) (g : Int × List StudyItem) :
    (processGroup A acc g).2 = acc.2 ∨
    ((processGroup A acc g).2 =
        acc.2 ++ [⟨g.1, g.2.map (fun x => x.course), g.2.length⟩] ∧
      g.2.length ≠ 1) := by
  by_cases h : g.2.length = 1
  · left
    simp [processGroup, h]
  · right
    refine ⟨?_, h⟩
    rcases h2 : stableSortBy (fun x => x.days_until_exam) g.2 with _ | ⟨u, rest⟩ <;>
      simp [processGroup, h, h2]

theorem foldl_processGroup_snd_records (A : List StudyItem)
    (gs : List (Int × List StudyItem))
    (st : List StudyItem × List ConflictRecord)
    (hst : ∀ r ∈ st.2, 2 ≤ r.original_count ∧ r.original_count = r.courses.length)
    (hgs : ∀ g ∈ gs, 1 ≤ g.2.length) :
    ∀ r ∈ (gs.foldl (processGroup A) st).2,
      2 ≤ r.original_count ∧ r.original_count = r.courses.length := by
  induction gs generalizing st with
  | nil => exact hst
  | cons g gs ih =>
    intro r hr
    simp only [List.foldl_cons] at hr
    refine ih (processGroup A st g) ?_
      (fun g2 hg2 => hgs g2 (List.mem_cons_of_mem g hg2)) r hr
    intro r2 hr2
    rcases processGroup_snd_cases A st g with h | ⟨h, hne⟩
    · rw [h] at hr2
      exact hst r2 hr2
    · rw [h] at hr2
      rcases List.mem_append.mp hr2 with h2 | h2
      · exact hst r2 h2
      · obtain rfl := List.mem_singleton.mp h2
        have h1 := hgs g (List.mem_cons_self g gs)
        refine ⟨?_, ?_⟩
        · show 2 ≤ g.2.length
          omega
        · simp [List.length_map]

/-- C6 (amended): one ConflictRecord is produced per overloaded day, not
per overflowing item: its `courses` lists the courses of all the items
sharing that date (in processing order) and its `original_count` is the
total number of items on that day, which is always at least 2 and always
equals the length of `courses`. -/
theorem conflict_record_counts_whole_group :
    ∀ items : List StudyItem, ∀ r ∈ (resolve_calendar_conflicts items).2,
      2 ≤ r.original_count ∧ r.original_count = r.courses.length := by
  intro items r hr
  by_cases hemp : items.isEmpty
  · simp only [resolve_calendar_conflicts, hemp, if_true] at hr
    cases hr
  · simp only [resolve_calendar_conflicts, hemp, if_false,
      Bool.false_eq_true] at hr
    refine foldl_processGroup_snd_records items _ ([], [])
      (by intro r2 hr2; cases hr2) ?_ r hr
    intro g hg
    rcases List.mem_map.mp hg with ⟨d, hd, rfl⟩
    have hdm := mem_of_mem_keysInOrder _ _ hd
    rcases List.mem_map.mp hdm with ⟨x, hx, hxd⟩
    have hmem : x ∈ (stableSortBy (fun t => t.date) items).filter
        (fun t => t.date == d) :=
      List.mem_filter.mpr ⟨hx, by simp [hxd]⟩
    exact List.length_pos.mpr (List.ne_nil_of_mem hmem)

theorem conflict_record_counts_whole_group_witness :
    (⟨10, ["A", "B"], 2⟩ : ConflictRecord) ∈ (resolve_calendar_conflicts exC6).2 ∧
    2 ≤ (⟨10, ["A", "B"], 2⟩ : ConflictRecord).original_count ∧
    (⟨10, ["A", "B"], 2⟩ : ConflictRecord).original_count =
      (⟨10, ["A", "B"], 2⟩ : ConflictRecord).courses.length :=
  ⟨by decide, conflict_record_counts_whole_group exC6 _ (by decide)⟩

theorem keysAux_pairwise_lt (l : List Int) (acc : List Int)
    (hl : List.Pairwise (fun a b => a ≤ b) l)
    (hacc : ∀ a ∈ acc, ∀ x ∈ l, a ≤ x)
    (haccp : List.Pairwise (fun a b => b < a) acc) :
    List.Pairwise (fun a b => a < b) (keysAux l acc) := by
  induction l generalizing acc with
  | nil =>
    simp only [keysAux]
    exact List.pairwise_reverse.mpr haccp
  | cons d ds ih =>
    rcases List.pairwise_cons.mp hl with ⟨hd, hds⟩
    by_cases hmem : d ∈ acc
    · simp only [keysAux, if_pos hmem]
      exact ih acc hds (fun a ha x hx => hacc a ha x (List.mem_cons_of_mem d hx)) haccp
    · simp only [keysAux, if_neg hmem]
      refine ih (d :: acc) hds ?_ ?_
      · intro a ha x hx
        rcases List.mem_cons.mp ha with rfl | ha2
        · exact hd x hx
        · exact hacc a ha2 x (List.mem_cons_of_mem d hx)
      · refine List.pairwise_cons.mpr ⟨?_, haccp⟩
        intro a ha
        have hle : a ≤ d := hacc a ha d (List.mem_cons_self d ds)
        exact lt_of_le_of_ne hle (fun h => hmem (h ▸ ha))

theorem keysInOrder_pairwise_lt (l : List Int)
    (hl : List.Pairwise (fun a b => a ≤ b) l) :
    List.Pairwise (fun a b => a < b) (keysInOrder l) :=
  keysAux_pairwise_lt l [] hl (by intro a ha; cases ha) List.Pairwise.nil

theorem foldl_processGroup_snd_dates (A : List StudyItem)
    (gs : List (Int × List StudyItem))
    (st : List StudyItem × List ConflictRecord) :
    ∃ ex : List ConflictRecord,
      (gs.foldl (processGroup A) st).2 = st.2 ++ ex ∧
      (ex.map (fun r => r.date)).Sublist (gs.map (fun g => g.1)) := by
  induction gs generalizing st with
  | nil => exact ⟨[], by simp, by simp⟩
  | cons g gs ih =>
    obtain ⟨ex, hex, hsub⟩ := ih (processGroup A st g)
    rcases processGroup_snd_cases A st g with h | ⟨h, _⟩
    · rw [h] at hex
      exact ⟨ex, by simpa [List.foldl_cons] using hex, hsub.cons g.1⟩
    · rw [h, List.append_assoc] at hex
      refine ⟨⟨g.1, g.2.map (fun x => x.course), g.2.length⟩ :: ex,
        by simpa [List.foldl_cons] using hex, ?_⟩
      simpa using List.Sublist.cons₂ g.1 hsub

/-- C7 (amended): the ConflictRecords are returned in day-processing
order, i.e. with strictly ascending dates (one record at most per day,
days visited chronologically); the resolved item list itself is in
emission order and is NOT sorted by resulting date, since rescheduled
copies are appended while their original day is processed (see the
counterexample). -/
theorem conflict_records_in_ascending_date_order :
    ∀ items : List StudyItem,
      List.Pairwise (fun a b => a < b)
        ((resolve_calendar_conflicts items).2.map (fun r => r.date)) := by
  intro items
  by_cases hemp : items.isEmpty
  · simp [resolve_calendar_conflicts, hemp]
  · simp only [resolve_calendar_conflicts, hemp, if_false, Bool.false_eq_true]
    obtain ⟨ex, hex, hsub⟩ := foldl_processGroup_snd_dates items
      ((keysInOrder ((stableSortBy (fun x => x.date) items).map (fun x => x.date))).map
        (fun d => (d, (stableSortBy (fun x => x.date) items).filter (fun x => x.date == d))))
      ([], [])
    rw [hex]
    simp only [List.nil_append]
    have hfst :
        (((keysInOrder ((stableSortBy (fun x => x.date) items).map (fun x => x.date))).map
          (fun d => (d, (stableSortBy (fun x => x.date) items).filter (fun x => x.date == d)))).map
            (fun g => g.1)) =
        keysInOrder ((stableSortBy (fun x => x.date) items).map (fun x => x.date)) := by
      rw [List.map_map]
      exact List.map_id _
    rw [hfst] at hsub
    have hsorted : List.Pairwise (fun a b => a ≤ b)
        ((stableSortBy (fun x => x.date) items).map (fun x => x.date)) :=
      List.pairwise_map.mpr (stableSortBy_pairwise (fun x => x.date) items)
    exact List.Pairwise.sublist hsub (keysInOrder_pairwise_lt _ hsorted)
